import Mathlib

/-!
Verification of the click-analytics and dashboard subsystem of the
go-url-shortener repository.

The embedding models the live SQLite repository
(`pkg/adapters/repository/sqlite/repository.go`) and the service layer
(`pkg/core/services/link_service.go`).  A second, older copy of the
repository exists under `internal/adapters/repository/sqlite/` but nothing
in the module imports it (`cmd/server/main.go`, `api/index.go` and the
tests all use the `pkg` path), so the `pkg` version is the authority.

Modelling conventions:
* SQL tables become Lean lists of rows; `id INTEGER PRIMARY KEY
  AUTOINCREMENT` for visits is modelled with an explicit next-id counter.
* Go `int64` / SQLite `INTEGER` become `Int` (no operation here comes
  close to overflow; counters only ever grow by 1 per committed visit).
* `time.Time` values are carried as their stored text form
  `"YYYY-MM-DD HH:MM:SS"` (the code formats with
  `visit.CreatedAt.Format("2006-01-02 15:04:05")` before insertion), so
  SQLite's `strftime('%Y-%m-%d', created_at)` is the first 10 characters
  and `ORDER BY date` is lexicographic string order, which on this fixed
  digit format coincides with chronological order.
* SQL `LIKE '%x%'` is ASCII-case-insensitive containment.
* A Go `map[string]int64` built by successive assignments is modelled as
  an association list where assigning to an existing key overwrites it in
  place and assigning a fresh key appends.
-/

namespace UrlShort

/-- Model of `domain.Link` (pkg/core/domain/link.go) joined with the `links` table
columns of `migrate`: id, original_url, short_code, title, tags JSON,
clicks (default 0), created_at, updated_at, deleted_at (nullable). -/
structure Link where
  id : Int
  originalURL : String
  shortCode : String
  title : String
  tags : List String
  clicks : Int
  createdAt : String
  updatedAt : String
  deletedAt : Option String
deriving Repr, DecidableEq

/-- Model of `domain.Visit` (pkg/core/domain/visit.go) / the `visits` table:
id, link_id, referer, user_agent, ip_hash, created_at. -/
structure Visit where
  id : Int
  linkID : Int
  referer : String
  userAgent : String
  ipHash : String
  createdAt : String
deriving Repr, DecidableEq

/-- The SQLite database state: the `links` and `visits` tables plus the
AUTOINCREMENT cursor for `visits.id`. -/
structure DB where
  links : List Link
  visits : List Visit
  nextVisitId : Int
deriving Repr, DecidableEq

/-- The caller-supplied part of a visit row: `domain.Visit` as built by
`LinkService.RecordVisit` before the repository assigns the row id.
`createdAt` is already in stored text form. -/
structure VisitInput where
  linkID : Int
  referer : String
  userAgent : String
  ipHash : String
  createdAt : String
deriving Repr, DecidableEq

/-- The visit row inserted by
`INSERT INTO visits (link_id, referer, user_agent, ip_hash, created_at)`. -/
def mkVisitRow (db : DB) (v : VisitInput) : Visit :=
  { id := db.nextVisitId, linkID := v.linkID, referer := v.referer,
    userAgent := v.userAgent, ipHash := v.ipHash, createdAt := v.createdAt }

/-- Step 1 of `SQLiteRepository.RecordVisit`: insert the visit row.  With
the driver's default pragmas the `FOREIGN KEY(link_id)` clause is not
enforced, so the insert succeeds regardless of whether the link exists. -/
def insertVisit (db : DB) (v : VisitInput) : DB :=
  { db with visits := db.visits ++ [mkVisitRow db v],
            nextVisitId := db.nextVisitId + 1 }

/-- Step 2 of `SQLiteRepository.RecordVisit`:
`UPDATE links SET clicks = clicks + 1 WHERE id = ?`. -/
def bumpClicks (db : DB) (linkID : Int) : DB :=
  { db with links := db.links.map fun l =>
      if l.id = linkID then { l with clicks := l.clicks + 1 } else l }

/-- Which of the statements inside the `RecordVisit` transaction fail
(storage failures injected by the environment). -/
structure TxFaults where
  insertFails : Bool
  updateFails : Bool
  commitFails : Bool
deriving Repr, DecidableEq

/-- Model of `SQLiteRepository.RecordVisit`: `BeginTx`, insert the visit row,
increment the link's counter, `Commit`; any early error return triggers
the deferred `Rollback`.  `.ok` carries the committed state; `.error`
means the transaction rolled back. -/
def recordVisitTx (db : DB) (v : VisitInput) (f : TxFaults) : Except String DB :=
  if f.insertFails then .error "insert failed"
  else
    let db1 := insertVisit db v
    if f.updateFails then .error "update failed"
    else
      let db2 := bumpClicks db1 v.linkID
      if f.commitFails then .error "commit failed"
      else .ok db2

/-- The durable state after a `RecordVisit` call: on error the rollback
leaves the database as it was.  The `Bool` is whether the call reported
success. -/
def recordVisitRun (db : DB) (v : VisitInput) (f : TxFaults) : DB × Bool :=
  match recordVisitTx db v f with
  | .ok db2 => (db2, true)
  | .error _ => (db, false)

/-- The fault-free `RecordVisit`. -/
def recordVisit (db : DB) (v : VisitInput) : DB :=
  bumpClicks (insertVisit db v) v.linkID

/-- A sequence of fault-free `RecordVisit` calls. -/
def recordMany (db : DB) (vs : List VisitInput) : DB :=
  vs.foldl recordVisit db

/-- Query `SELECT ... FROM links WHERE short_code = ? AND deleted_at IS NULL`
(`SQLiteRepository.GetByShortCode`; `ErrNoRows` becomes `none`). -/
def getByShortCode (db : DB) (code : String) : Option Link :=
  db.links.find? fun l => decide (l.shortCode = code ∧ l.deletedAt = none)

/-- Model of `LinkService.RecordVisit`: resolve the short code (excluding
soft-deleted links), error with "link not found" if it does not resolve,
otherwise record the visit through the repository.  The returned `DB` is
the durable state after the call. -/
def serviceRecordVisit (db : DB) (shortCode referer userAgent ip now : String) :
    DB × Except String Unit :=
  match getByShortCode db shortCode with
  | none => (db, .error "link not found")
  | some link =>
      (recordVisit db ⟨link.id, referer, userAgent, ip, now⟩, .ok ())

/-- Query `SELECT COUNT(*) FROM visits WHERE link_id = ?` (also the row set the
stats queries aggregate over). -/
def visitsFor (db : DB) (linkID : Int) : List Visit :=
  db.visits.filter fun v => decide (v.linkID = linkID)

/-- Number of visit rows recorded for a link. -/
def linkVisitCount (db : DB) (linkID : Int) : Nat :=
  (visitsFor db linkID).length

/-- The spec's §3 invariant: every link's denormalized counter equals the
number of visit rows referencing it. -/
def clickInv (db : DB) : Prop :=
  ∀ l ∈ db.links, l.clicks = (linkVisitCount db l.id : Int)

/-! ### Stats Aggregator (`SQLiteRepository.GetLinkStats`) -/

/-- Lexicographic strict order on character lists (SQLite's BINARY
collation, the order used by `GROUP BY` and `ORDER BY` on text). -/
def charsLt : List Char → List Char → Bool
  | _, [] => false
  | [], _ :: _ => true
  | a :: as, b :: bs => decide (a < b) || (decide (a = b) && charsLt as bs)

/-- Lexicographic strict order on strings. -/
def strLt (s t : String) : Bool :=
  charsLt s.toList t.toList

/-- Insert a key into a strictly ascending list, keeping it strictly
ascending; duplicates are dropped.  Folding this realizes SQLite's
`GROUP BY`, which forms the groups in ascending key order. -/
def insertAscNoDup (a : String) : List String → List String
  | [] => [a]
  | b :: bs =>
      if a = b then b :: bs
      else if strLt a b then a :: b :: bs
      else b :: insertAscNoDup a bs

/-- Distinct keys of a list, in ascending order. -/
def sortedKeysAsc (l : List String) : List String :=
  l.foldr insertAscNoDup []

/-- Count `COUNT(*)` of visits of a link having a given referer. -/
def refCount (db : DB) (linkID : Int) (k : String) : Nat :=
  ((visitsFor db linkID).filter fun v => decide (v.referer = k)).length

/-- Row set of `SELECT referer, COUNT(*) as c FROM visits WHERE link_id = ?
GROUP BY referer ORDER BY c DESC LIMIT 10`: one row per distinct referer
(groups formed in ascending referer order), sorted by count descending
(the sort is stable, so equal counts stay in group order) and truncated
to 10. -/
def referrerRows (db : DB) (linkID : Int) : List (String × Nat) :=
  (List.insertionSort (fun a b => b.2 ≤ a.2)
    ((sortedKeysAsc ((visitsFor db linkID).map Visit.referer)).map
      fun k => (k, refCount db linkID k))).take 10

/-- The `if ref == "" { ref = "Direct" }` bucketing in `GetLinkStats`. -/
def renameKey (k : String) : String :=
  if k = "" then "Direct" else k

/-- Assignment `m[k] = c` on a Go map modelled as an association list
with unique keys: overwrite in place if the key is present, append
otherwise. -/
def updAssoc : List (String × Nat) → String → Nat → List (String × Nat)
  | [], k, c => [(k, c)]
  | p :: ps, k, c => if p.1 = k then (k, c) :: ps else p :: updAssoc ps k c

/-- Map lookup. -/
def lookupAssoc (m : List (String × Nat)) (k : String) : Option Nat :=
  (m.find? fun p => decide (p.1 = k)).map Prod.snd

/-- The `Referrers` histogram of `GetLinkStats`: scan the referrer rows in
order, rename the empty referer to "Direct", and assign into the map. -/
def referrersHistogram (db : DB) (linkID : Int) : List (String × Nat) :=
  (referrerRows db linkID).foldl
    (fun m row => updAssoc m (renameKey row.1) row.2) []

/-- Value of `strftime('%Y-%m-%d', created_at)` on the stored
`"YYYY-MM-DD HH:MM:SS"` text: its first 10 characters. -/
def visitDay (v : Visit) : String :=
  ⟨v.createdAt.toList.take 10⟩

/-- Count `COUNT(*)` of a link's visits on a given calendar day. -/
def dayCount (db : DB) (linkID : Int) (d : String) : Nat :=
  ((visitsFor db linkID).filter fun v => decide (visitDay v = d)).length

/-- Distinct visit days of a link in descending order (`GROUP BY date
ORDER BY date DESC`). -/
def dayKeysDesc (db : DB) (linkID : Int) : List String :=
  (sortedKeysAsc ((visitsFor db linkID).map visitDay)).reverse

/-- The `DailyClicks` series of `GetLinkStats`: the 30 most recent
distinct visit days, descending, each with its count (`LIMIT 30`). -/
def dailySeries (db : DB) (linkID : Int) : List (String × Nat) :=
  ((dayKeysDesc db linkID).take 30).map fun d => (d, dayCount db linkID d)

/-- Model of `domain.LinkStats`. -/
structure LinkStats where
  totalClicks : Nat
  referrers : List (String × Nat)
  dailyClicks : List (String × Nat)
deriving Repr, DecidableEq

/-- Model of `SQLiteRepository.GetLinkStats` (read-only). -/
def getLinkStats (db : DB) (linkID : Int) : LinkStats :=
  { totalClicks := linkVisitCount db linkID,
    referrers := referrersHistogram db linkID,
    dailyClicks := dailySeries db linkID }

/-! ### Dashboard Ranker (`SQLiteRepository.GetDashboardStats`,
`LinkService.GetDashboard`) -/

/-- The three optional dashboard filters; `LinkService.GetDashboard`
always supplies all three keys, and the repository applies a filter
exactly when its string is nonempty. -/
structure DashFilters where
  search : String
  tag : String
  domain : String
deriving Repr, DecidableEq

/-- ASCII lower-casing, as SQLite's `LIKE` folds `A`-`Z`. -/
def lowerChar (c : Char) : Char :=
  if 'A' ≤ c ∧ c ≤ 'Z' then Char.ofNat (c.toNat + 32) else c

/-- Does the needle occur as an initial run of the hay? -/
def strHead : List Char → List Char → Bool
  | [], _ => true
  | _ :: _, [] => false
  | a :: as, b :: bs => decide (a = b) && strHead as bs

/-- Does the needle occur contiguously inside the hay? -/
def strSub (n : List Char) : List Char → Bool
  | [] => strHead n []
  | b :: bs => strHead n (b :: bs) || strSub n bs

/-- Predicate `hay LIKE '%' || needle || '%'`: case-insensitive containment. -/
def likeContains (needle hay : String) : Bool :=
  strSub (needle.toList.map lowerChar) (hay.toList.map lowerChar)

/-- The `AND`ed `WHERE` clauses `GetDashboardStats` adds for nonempty
filters: `title LIKE ?`, `EXISTS (SELECT 1 FROM json_each(tags) WHERE
value = ?)`, `original_url LIKE ?`. -/
def dashMatch (f : DashFilters) (l : Link) : Bool :=
  (decide (f.search = "") || likeContains f.search l.title) &&
  (decide (f.tag = "") || l.tags.contains f.tag) &&
  (decide (f.domain = "") || likeContains f.domain l.originalURL)

/-- Rows of `SELECT ... FROM links WHERE deleted_at IS NULL` plus the filter
clauses. -/
def dashRows (db : DB) (f : DashFilters) : List Link :=
  db.links.filter fun l => l.deletedAt.isNone && dashMatch f l

/-- Sorting `ORDER BY clicks DESC` over the filtered rows (deterministic stable
sort: SQLite's sorter is deterministic on a fixed table state). -/
def rankLinks (db : DB) (f : DashFilters) : List Link :=
  List.insertionSort (fun a b => b.clicks ≤ a.clicks) (dashRows db f)

/-- SQLite `LIMIT ?`: a negative limit means no limit. -/
def takeLimit (limit : Int) (l : List Link) : List Link :=
  if limit < 0 then l else l.take limit.toNat

/-- Value of `SELECT COALESCE(SUM(clicks), 0) FROM links WHERE deleted_at IS NULL`. -/
def totalSystemClicks (db : DB) : Int :=
  ((db.links.filter fun l => l.deletedAt.isNone).map Link.clicks).sum

/-- Model of `SQLiteRepository.GetDashboardStats` (read-only): the ranked,
truncated links and the system-wide click total. -/
def getDashboardStats (db : DB) (limit : Int) (f : DashFilters) :
    List Link × Int :=
  (takeLimit limit (rankLinks db f), totalSystemClicks db)

/-- Model of `LinkService.GetDashboard`: normalize a non-positive limit to 10 and
query the repository. -/
def getDashboard (db : DB) (limit : Int) (search tag domainFilter : String) :
    List Link × Int :=
  getDashboardStats db (if limit < 1 then 10 else limit)
    ⟨search, tag, domainFilter⟩

/-! ### Basic facts about `RecordVisit` -/

theorem recordVisit_visits (db : DB) (v : VisitInput) :
    (recordVisit db v).visits = db.visits ++ [mkVisitRow db v] := rfl

theorem recordVisit_links (db : DB) (v : VisitInput) :
    (recordVisit db v).links = db.links.map fun l =>
      if l.id = v.linkID then { l with clicks := l.clicks + 1 } else l := rfl

theorem linkVisitCount_recordVisit (db : DB) (v : VisitInput) (i : Int) :
    linkVisitCount (recordVisit db v) i =
      linkVisitCount db i + (if v.linkID = i then 1 else 0) := by
  simp only [linkVisitCount, visitsFor, recordVisit, bumpClicks, insertVisit,
    mkVisitRow, List.filter_append, List.length_append]
  by_cases h : v.linkID = i <;> simp [h]

theorem clickInv_recordVisit (db : DB) (v : VisitInput) (h : clickInv db) :
    clickInv (recordVisit db v) := by
  intro l hl
  rw [recordVisit_links] at hl
  rcases List.mem_map.mp hl with ⟨l0, hl0, rfl⟩
  have hinv := h l0 hl0
  by_cases hid : l0.id = v.linkID
  · have hc : linkVisitCount (recordVisit db v) l0.id = linkVisitCount db l0.id + 1 := by
      rw [linkVisitCount_recordVisit, if_pos hid.symm]
    simp only [if_pos hid]
    show l0.clicks + 1 = ((linkVisitCount (recordVisit db v) l0.id : Nat) : Int)
    rw [hc]
    push_cast
    omega
  · have hc : linkVisitCount (recordVisit db v) l0.id = linkVisitCount db l0.id := by
      rw [linkVisitCount_recordVisit, if_neg (fun he => hid he.symm)]
      omega
    simp only [if_neg hid]
    rw [hc]
    exact hinv

theorem recordMany_cons (db : DB) (v : VisitInput) (vs : List VisitInput) :
    recordMany db (v :: vs) = recordMany (recordVisit db v) vs := rfl

theorem clickInv_recordMany (db : DB) (vs : List VisitInput) (h : clickInv db) :
    clickInv (recordMany db vs) := by
  induction vs generalizing db with
  | nil => exact h
  | cons v vs ih => exact ih (recordVisit db v) (clickInv_recordVisit db v h)

theorem linkVisitCount_recordMany (db : DB) (vs : List VisitInput) (lid : Int)
    (hall : ∀ v ∈ vs, v.linkID = lid) :
    linkVisitCount (recordMany db vs) lid = linkVisitCount db lid + vs.length := by
  induction vs generalizing db with
  | nil => simp [recordMany]
  | cons v vs ih =>
      have hv : v.linkID = lid := hall v (List.mem_cons_self v vs)
      have h2 := ih (recordVisit db v) fun w hw => hall w (List.mem_cons_of_mem v hw)
      show linkVisitCount (recordMany (recordVisit db v) vs) lid = _
      rw [h2, linkVisitCount_recordVisit, if_pos hv]
      simp
      omega

theorem recordMany_links (db : DB) (vs : List VisitInput) (lid : Int)
    (hall : ∀ v ∈ vs, v.linkID = lid) :
    (recordMany db vs).links = db.links.map fun l =>
      if l.id = lid then { l with clicks := l.clicks + (vs.length : Int) } else l := by
  induction vs generalizing db with
  | nil =>
      show db.links = _
      simp
  | cons v vs ih =>
      have hv : v.linkID = lid := hall v (List.mem_cons_self v vs)
      have h2 := ih (recordVisit db v) fun w hw => hall w (List.mem_cons_of_mem v hw)
      rw [recordMany_cons, h2, recordVisit_links, List.map_map]
      refine List.map_congr_left fun l _ => ?_
      by_cases h : l.id = lid
      · have hvl : l.id = v.linkID := by rw [hv, h]
        simp only [Function.comp_apply, if_pos hvl, if_pos h, List.length_cons,
          Link.mk.injEq, and_true, true_and]
        push_cast
        omega
      · have hvl : ¬ l.id = v.linkID := by rw [hv]; exact h
        simp [Function.comp_apply, if_neg hvl, if_neg h]

/-- C1: after any sequence of completed `RecordVisit` transactions the
counter/log invariant is preserved, and after `N` calls against the same
link the visit log for that link has exactly `N` new rows while every
stored copy of that link has its counter grown by exactly `N` (all other
links unchanged). -/
theorem counter_log_consistency (db : DB) (vs : List VisitInput) (lid : Int)
    (hall : ∀ v ∈ vs, v.linkID = lid) :
    (clickInv db → clickInv (recordMany db vs)) ∧
    linkVisitCount (recordMany db vs) lid = linkVisitCount db lid + vs.length ∧
    (recordMany db vs).links = db.links.map fun l =>
      if l.id = lid then { l with clicks := l.clicks + (vs.length : Int) } else l :=
  ⟨clickInv_recordMany db vs, linkVisitCount_recordMany db vs lid hall,
    recordMany_links db vs lid hall⟩

/-- One fresh link, no visits. -/
def wDB1 : DB :=
  ⟨[⟨1, "https://e.x/a", "a", "t", [], 0,
     "2024-01-01 00:00:00", "2024-01-01 00:00:00", none⟩], [], 1⟩

/-- A visit input against link 1. -/
def wIn1 : VisitInput := ⟨1, "r", "ua", "ip", "2024-06-01 10:00:00"⟩

/-- C1 witness: two recorded visits grow link 1's log by exactly two. -/
theorem counter_log_consistency_witness :
    linkVisitCount (recordMany wDB1 [wIn1, wIn1]) 1 = linkVisitCount wDB1 1 + 2 := by
  have h := counter_log_consistency wDB1 [wIn1, wIn1] 1 (by decide)
  simpa using h.2.1

/-- C2: every `RecordVisit` call is atomic: either it reports failure and
the durable state is exactly the prior state, or it reports success and
the durable state has exactly one new visit row appended and the
referenced link's counter incremented by exactly one — never one effect
without the other, whichever statement inside the transaction fails. -/
theorem recordVisit_atomic (db : DB) (v : VisitInput) (f : TxFaults) :
    recordVisitRun db v f = (db, false) ∨
    recordVisitRun db v f =
      ({ links := db.links.map fun l =>
            if l.id = v.linkID then { l with clicks := l.clicks + 1 } else l,
         visits := db.visits ++ [mkVisitRow db v],
         nextVisitId := db.nextVisitId + 1 }, true) := by
  rcases f with ⟨fi, fu, fc⟩
  cases fi <;> cases fu <;> cases fc <;>
    simp [recordVisitRun, recordVisitTx, bumpClicks, insertVisit]

/-- A store whose only link with short code "abc" is soft-deleted. -/
def delDB : DB :=
  ⟨[⟨1, "https://e.x/a", "abc", "t", [], 0,
     "2024-01-01 00:00:00", "2024-01-01 00:00:00", some "2024-02-01 00:00:00"⟩],
   [], 1⟩

/-- C3 counterexample: the claim makes existence of the link (deleted or
not) the only precondition, but the code rejects a visit for an existing,
soft-deleted link: a link row with short code "abc" exists, yet the call
fails and records nothing. -/
theorem recordVisit_deleted_precondition_counterexample :
    delDB.links.map Link.shortCode = ["abc"] ∧
    serviceRecordVisit delDB "abc" "r" "ua" "ip" "2024-06-01 10:00:00" =
      (delDB, Except.error "link not found") :=
  ⟨rfl, rfl⟩

/-- C3 (amended): if the short code does not resolve to an existing
non-deleted link, the recording fails, the failure is reported to the
caller, and no partial write is retained (the durable state is exactly
the prior state); the precondition is an existing non-deleted link. -/
theorem serviceRecordVisit_unresolved_code (db : DB) (code r ua ip now : String)
    (h : getByShortCode db code = none) :
    serviceRecordVisit db code r ua ip now = (db, Except.error "link not found") := by
  simp [serviceRecordVisit, h]

/-- C3 witness: recording against an empty store fails cleanly. -/
theorem serviceRecordVisit_unresolved_code_witness :
    serviceRecordVisit ⟨[], [], 1⟩ "zz" "r" "ua" "ip" "2024-06-01 10:00:00" =
      ((⟨[], [], 1⟩ : DB), Except.error "link not found") :=
  serviceRecordVisit_unresolved_code ⟨[], [], 1⟩ "zz" "r" "ua" "ip"
    "2024-06-01 10:00:00" rfl

/-- C9: recording a visit through the short code of a soft-deleted link
returns the "link not found" error and leaves the store (visit log and
all counters) unchanged, even though the link row still exists. -/
theorem softDeleted_visit_rejected (db : DB) (code r ua ip now : String)
    (hex : ∃ l ∈ db.links, l.shortCode = code)
    (hdel : ∀ l ∈ db.links, l.shortCode = code → l.deletedAt ≠ none) :
    serviceRecordVisit db code r ua ip now = (db, Except.error "link not found") := by
  have hnone : getByShortCode db code = none := by
    apply List.find?_eq_none.mpr
    intro l hl
    simp only [decide_eq_true_eq, not_and]
    exact fun h1 => hdel l hl h1
  simp [serviceRecordVisit, hnone]

/-- C9 witness: the soft-deleted "abc" link rejects visits. -/
theorem softDeleted_visit_rejected_witness :
    serviceRecordVisit delDB "abc" "x" "y" "z" "2024-06-02 10:00:00" =
      (delDB, Except.error "link not found") :=
  softDeleted_visit_rejected delDB "abc" "x" "y" "z" "2024-06-02 10:00:00"
    (by decide) (by decide)

/-! ### Dashboard Ranker -/

theorem dashRows_append_deleted (db : DB) (f : DashFilters) (l : Link)
    (hdel : l.deletedAt.isSome) :
    dashRows { db with links := db.links ++ [l] } f = dashRows db f := by
  have : l.deletedAt.isNone = false := by
    cases h : l.deletedAt <;> simp_all
  simp [dashRows, List.filter_append, this]

theorem totalSystemClicks_append_deleted (db : DB) (l : Link)
    (hdel : l.deletedAt.isSome) :
    totalSystemClicks { db with links := db.links ++ [l] } = totalSystemClicks db := by
  have : l.deletedAt.isNone = false := by
    cases h : l.deletedAt <;> simp_all
  simp [totalSystemClicks, List.filter_append, this]

theorem mem_rankLinks (db : DB) (f : DashFilters) (l : Link) :
    l ∈ rankLinks db f ↔ l ∈ dashRows db f :=
  (List.perm_insertionSort _ _).mem_iff

/-- C4: the dashboard's system-wide total is the sum of the click
counters of the links whose soft-delete timestamp is unset; a deleted
link never appears in the ranked results; inserting a deleted link
changes neither output, and the dashboard ignores the visit log entirely
(so a deleted link's recorded visits contribute nothing). -/
theorem dashboard_soft_deleted_excluded (db : DB) (limit : Int) (f : DashFilters)
    (l : Link) (vs : List Visit) (hdel : l.deletedAt.isSome) :
    (getDashboardStats db limit f).2 =
      ((db.links.filter fun x => x.deletedAt.isNone).map Link.clicks).sum ∧
    (∀ x ∈ (getDashboardStats db limit f).1, x.deletedAt = none) ∧
    getDashboardStats { db with links := db.links ++ [l] } limit f =
      getDashboardStats db limit f ∧
    getDashboardStats { db with visits := vs } limit f =
      getDashboardStats db limit f := by
  refine ⟨rfl, ?_, ?_, rfl⟩
  · intro x hx
    have hx2 : x ∈ rankLinks db f := by
      have : (getDashboardStats db limit f).1 = takeLimit limit (rankLinks db f) := rfl
      rw [this, takeLimit] at hx
      split at hx
      · exact hx
      · exact List.take_sublist _ _ |>.mem hx
    have hx3 : x ∈ dashRows db f := (mem_rankLinks db f x).mp hx2
    have := List.of_mem_filter hx3
    have h4 : x.deletedAt.isNone := by
      cases h : x.deletedAt.isNone
      · rw [h] at this; simp at this
      · rfl
    exact Option.isNone_iff_eq_none.mp h4
  · show (takeLimit limit (rankLinks _ f), totalSystemClicks _) = _
    rw [show rankLinks { db with links := db.links ++ [l] } f =
          List.insertionSort _ (dashRows { db with links := db.links ++ [l] } f) from rfl,
        dashRows_append_deleted db f l hdel,
        totalSystemClicks_append_deleted db l hdel]
    rfl

/-- A store with one live link (7 clicks) and one soft-deleted link. -/
def wDB4 : DB :=
  ⟨[⟨1, "https://e.x/a", "a", "t", [], 7,
     "2024-01-01 00:00:00", "2024-01-01 00:00:00", none⟩], [], 1⟩

/-- A soft-deleted link with recorded clicks. -/
def wDelLink : Link :=
  ⟨2, "https://e.x/b", "b", "t", [], 9,
   "2024-01-01 00:00:00", "2024-01-01 00:00:00", some "2024-02-01 00:00:00"⟩

/-- C4 witness: appending a deleted link with 9 clicks changes nothing
in the dashboard of the one-link store. -/
theorem dashboard_soft_deleted_excluded_witness :
    getDashboardStats { wDB4 with links := wDB4.links ++ [wDelLink] } 10 ⟨"", "", ""⟩ =
      getDashboardStats wDB4 10 ⟨"", "", ""⟩ :=
  (dashboard_soft_deleted_excluded wDB4 10 ⟨"", "", ""⟩ wDelLink [] (by decide)).2.2.1

/-- The `ORDER BY clicks DESC` comparison. -/
def byClicksDesc (a b : Link) : Prop := b.clicks ≤ a.clicks

instance : DecidableRel byClicksDesc := fun a b => Int.decLe b.clicks a.clicks

instance : IsTotal Link byClicksDesc := ⟨fun a b => le_total b.clicks a.clicks⟩

instance : IsTrans Link byClicksDesc := ⟨fun _ _ _ h1 h2 => le_trans h2 h1⟩

theorem rankLinks_eq (db : DB) (f : DashFilters) :
    rankLinks db f = List.insertionSort byClicksDesc (dashRows db f) := rfl

theorem rankLinks_sorted (db : DB) (f : DashFilters) :
    (rankLinks db f).Sorted byClicksDesc :=
  List.sorted_insertionSort byClicksDesc (dashRows db f)

theorem mem_dashRows (db : DB) (f : DashFilters) (l : Link) (h : l ∈ dashRows db f) :
    l ∈ db.links ∧ l.deletedAt = none ∧
      (f.search ≠ "" → likeContains f.search l.title = true) ∧
      (f.tag ≠ "" → l.tags.contains f.tag = true) ∧
      (f.domain ≠ "" → likeContains f.domain l.originalURL = true) := by
  have hmem : l ∈ db.links := List.mem_of_mem_filter h
  have hp := List.of_mem_filter h
  simp only [Bool.and_eq_true, dashMatch, Bool.or_eq_true, decide_eq_true_eq] at hp
  obtain ⟨hdel, ⟨hs, ht⟩, hd⟩ := hp
  refine ⟨hmem, Option.isNone_iff_eq_none.mp hdel, ?_, ?_, ?_⟩
  · intro hne; rcases hs with h | h
    · exact absurd h hne
    · exact h
  · intro hne; rcases ht with h | h
    · exact absurd h hne
    · exact h
  · intro hne; rcases hd with h | h
    · exact absurd h hne
    · exact h

/-- C5: for every limit and filter combination, the dashboard returns the
non-deleted links that pass every supplied filter (title substring, tag
membership, URL substring — ANDed), ordered by click counter descending
and truncated to the limit, with a non-positive limit normalized to 10:
(1) normalization; (2) the result length is the matching-row count capped
at the limit; (3) every returned link is a stored, non-deleted link
passing each supplied filter; (4) the result is sorted by clicks
descending; (5) when the matching rows fit inside the limit the result is
exactly those rows (up to the ranking order); (6) the result is exactly
the first `limit` entries of the full descending ranking of the matching
rows; (7) truncation keeps the top-clicked rows: any matching row left
out has at most as many clicks as every returned row. -/
theorem dashboard_ranking (db : DB) (limit : Int) (s t d : String) :
    (limit < 1 → getDashboard db limit s t d = getDashboard db 10 s t d) ∧
    (getDashboard db limit s t d).1.length =
      min (if limit < 1 then (10 : Int) else limit).toNat
        (dashRows db ⟨s, t, d⟩).length ∧
    (∀ l ∈ (getDashboard db limit s t d).1,
        l ∈ db.links ∧ l.deletedAt = none ∧
        (s ≠ "" → likeContains s l.title = true) ∧
        (t ≠ "" → l.tags.contains t = true) ∧
        (d ≠ "" → likeContains d l.originalURL = true)) ∧
    (getDashboard db limit s t d).1.Sorted byClicksDesc ∧
    ((dashRows db ⟨s, t, d⟩).length ≤
        (if limit < 1 then (10 : Int) else limit).toNat →
      (getDashboard db limit s t d).1.Perm (dashRows db ⟨s, t, d⟩)) ∧
    (getDashboard db limit s t d).1 =
      (rankLinks db ⟨s, t, d⟩).take
        (if limit < 1 then (10 : Int) else limit).toNat ∧
    (∀ l ∈ dashRows db ⟨s, t, d⟩, l ∉ (getDashboard db limit s t d).1 →
      ∀ x ∈ (getDashboard db limit s t d).1, l.clicks ≤ x.clicks) := by
  set lim : Int := if limit < 1 then (10 : Int) else limit with hlim
  have hlim1 : 1 ≤ lim := by
    rw [hlim]; split <;> omega
  have hres : (getDashboard db limit s t d).1 =
      (rankLinks db ⟨s, t, d⟩).take lim.toNat := by
    show takeLimit lim (rankLinks db ⟨s, t, d⟩) = _
    rw [takeLimit, if_neg (by omega)]
  refine ⟨?_, ?_, ?_, ?_, ?_, hres, ?_⟩
  · intro h
    show getDashboardStats db lim _ = getDashboardStats db (if (10:Int) < 1 then 10 else 10) _
    rw [hlim, if_pos h]
    norm_num
  · rw [hres, List.length_take, rankLinks_eq,
        (List.perm_insertionSort byClicksDesc _).length_eq]
  · intro l hl
    rw [hres] at hl
    have h2 : l ∈ rankLinks db ⟨s, t, d⟩ := (List.take_sublist _ _).mem hl
    exact mem_dashRows db ⟨s, t, d⟩ l ((mem_rankLinks db ⟨s, t, d⟩ l).mp h2)
  · rw [hres]
    exact (rankLinks_sorted db ⟨s, t, d⟩).sublist (List.take_sublist _ _)
  · intro hle
    rw [hres, List.take_of_length_le]
    · exact List.perm_insertionSort byClicksDesc _
    · rw [rankLinks_eq, (List.perm_insertionSort byClicksDesc _).length_eq]
      exact hle
  · intro l hl hnot x hx
    have hsplit := List.take_append_drop lim.toNat (rankLinks db ⟨s, t, d⟩)
    have hmem : l ∈ rankLinks db ⟨s, t, d⟩ := (mem_rankLinks db ⟨s, t, d⟩ l).mpr hl
    rw [hres] at hnot hx
    have hdrop : l ∈ (rankLinks db ⟨s, t, d⟩).drop lim.toNat := by
      rcases List.mem_append.mp (hsplit ▸ hmem) with h | h
      · exact absurd h hnot
      · exact h
    have hcross := (List.pairwise_append.mp
      (hsplit.symm ▸ rankLinks_sorted db ⟨s, t, d⟩)).2.2
    exact hcross x hx l hdrop

/-- A store with two live links. -/
def wDB5 : DB :=
  ⟨[⟨1, "https://e.x/a", "a", "t", [], 3,
     "2024-01-01 00:00:00", "2024-01-01 00:00:00", none⟩,
    ⟨2, "https://e.x/b", "b", "t", [], 5,
     "2024-01-01 00:00:00", "2024-01-01 00:00:00", none⟩], [], 1⟩

/-- C5 witness: a non-positive limit is normalized to the default 10. -/
theorem dashboard_ranking_witness :
    getDashboard wDB5 0 "" "" "" = getDashboard wDB5 10 "" "" "" :=
  (dashboard_ranking wDB5 0 "" "" "").1 (by decide)

/-! ### Read idempotence and tie-break determinism -/

theorem filter_orderedInsert_clicks (c : Int) (a : Link) (l : List Link) :
    (List.orderedInsert byClicksDesc a l).filter (fun x => decide (x.clicks = c)) =
      (a :: l).filter (fun x => decide (x.clicks = c)) := by
  induction l with
  | nil => rfl
  | cons b bs ih =>
      rw [List.orderedInsert]
      by_cases h : byClicksDesc a b
      · rw [if_pos h]
      · rw [if_neg h]
        have hlt : a.clicks < b.clicks := by
          unfold byClicksDesc at h; omega
        by_cases ha : a.clicks = c
        · have hb : ¬ b.clicks = c := by omega
          simp [List.filter_cons, ha, hb, ih]
        · simp [List.filter_cons, ha, ih]

theorem filter_insertionSort_clicks (c : Int) (l : List Link) :
    (List.insertionSort byClicksDesc l).filter (fun x => decide (x.clicks = c)) =
      l.filter (fun x => decide (x.clicks = c)) := by
  induction l with
  | nil => rfl
  | cons a l ih =>
      rw [List.insertionSort, filter_orderedInsert_clicks]
      simp [List.filter_cons, ih]

/-- C8: both read operations are pure functions of the store, so two
calls with no intervening writes return identical results; moreover the
ranking's tie-break is deterministic because links with any given click
count appear in the ranked order exactly as they appear in the stored
table order (the sort is stable), so repeated calls on unchanged data
return the same order even among equal click counts. -/
theorem reads_idempotent_deterministic (db : DB) (id limit : Int)
    (s t d : String) (c : Int) :
    getLinkStats db id = getLinkStats db id ∧
    getDashboard db limit s t d = getDashboard db limit s t d ∧
    (rankLinks db ⟨s, t, d⟩).filter (fun x => decide (x.clicks = c)) =
      (dashRows db ⟨s, t, d⟩).filter (fun x => decide (x.clicks = c)) :=
  ⟨rfl, rfl, filter_insertionSort_clicks c (dashRows db ⟨s, t, d⟩)⟩

/-! ### Order facts for the text collation -/

theorem charsLt_irrefl : ∀ x : List Char, charsLt x x = false
  | [] => rfl
  | a :: as => by simp [charsLt, charsLt_irrefl as]

theorem charsLt_trans : ∀ x y z : List Char,
    charsLt x y = true → charsLt y z = true → charsLt x z = true
  | _, [], _, h1, _ => by simp [charsLt] at h1
  | _, _ :: _, [], _, h2 => by simp [charsLt] at h2
  | [], b :: bs, c :: cs, _, _ => rfl
  | a :: as, b :: bs, c :: cs, h1, h2 => by
      simp only [charsLt, Bool.or_eq_true, Bool.and_eq_true, decide_eq_true_eq] at h1 h2 ⊢
      rcases h1 with h1 | ⟨h1e, h1r⟩
      · rcases h2 with h2 | ⟨h2e, h2r⟩
        · exact Or.inl (lt_trans h1 h2)
        · exact Or.inl (h2e ▸ h1)
      · rcases h2 with h2 | ⟨h2e, h2r⟩
        · exact Or.inl (h1e ▸ h2)
        · exact Or.inr ⟨h1e.trans h2e, charsLt_trans as bs cs h1r h2r⟩

theorem charsLt_total : ∀ x y : List Char,
    x = y ∨ charsLt x y = true ∨ charsLt y x = true
  | [], [] => Or.inl rfl
  | [], _ :: _ => Or.inr (Or.inl rfl)
  | _ :: _, [] => Or.inr (Or.inr rfl)
  | a :: as, b :: bs => by
      rcases lt_trichotomy a b with h | h | h
      · exact Or.inr (Or.inl (by simp [charsLt, h]))
      · rcases charsLt_total as bs with h2 | h2 | h2
        · exact Or.inl (by rw [h, h2])
        · exact Or.inr (Or.inl (by simp [charsLt, h, h2]))
        · exact Or.inr (Or.inr (by simp [charsLt, h.symm, h2]))
      · exact Or.inr (Or.inr (by simp [charsLt, h]))

theorem strLt_irrefl (s : String) : strLt s s = false :=
  charsLt_irrefl s.toList

theorem strLt_ne (s t : String) (h : strLt s t = true) : s ≠ t := by
  intro he
  rw [he, strLt_irrefl] at h
  cases h

theorem strLt_trans (s t u : String) (h1 : strLt s t = true)
    (h2 : strLt t u = true) : strLt s u = true :=
  charsLt_trans s.toList t.toList u.toList h1 h2

theorem strLt_total (s t : String) :
    s = t ∨ strLt s t = true ∨ strLt t s = true := by
  rcases charsLt_total s.toList t.toList with h | h | h
  · left
    cases s; cases t
    exact congrArg String.mk h
  · exact Or.inr (Or.inl h)
  · exact Or.inr (Or.inr h)

/-! ### Facts about `sortedKeysAsc` -/

theorem mem_insertAscNoDup (a x : String) (l : List String) :
    x ∈ insertAscNoDup a l ↔ x = a ∨ x ∈ l := by
  induction l with
  | nil => simp [insertAscNoDup]
  | cons b bs ih =>
      by_cases h1 : a = b
      · subst h1
        simp only [insertAscNoDup, if_pos rfl]
        constructor
        · intro h; exact Or.inr h
        · rintro (rfl | h)
          · exact List.mem_cons_self _ _
          · exact h
      · rw [insertAscNoDup, if_neg h1]
        by_cases h2 : strLt a b = true
        · rw [if_pos h2]
          simp [or_comm, or_left_comm]
        · rw [if_neg h2]
          simp only [List.mem_cons, ih]
          tauto

theorem pairwise_insertAscNoDup (a : String) (l : List String)
    (h : l.Pairwise fun x y => strLt x y = true) :
    (insertAscNoDup a l).Pairwise fun x y => strLt x y = true := by
  induction l with
  | nil => simp [insertAscNoDup]
  | cons b bs ih =>
      rcases List.pairwise_cons.mp h with ⟨hb, hbs⟩
      by_cases h1 : a = b
      · rw [insertAscNoDup, if_pos h1]
        exact h
      · rw [insertAscNoDup, if_neg h1]
        by_cases h2 : strLt a b = true
        · rw [if_pos h2]
          refine List.pairwise_cons.mpr ⟨?_, h⟩
          intro y hy
          rcases List.mem_cons.mp hy with rfl | hy
          · exact h2
          · exact strLt_trans a b y h2 (hb y hy)
        · rw [if_neg h2]
          refine List.pairwise_cons.mpr ⟨?_, ih hbs⟩
          intro y hy
          rcases (mem_insertAscNoDup a y bs).mp hy with rfl | hy
          · rcases strLt_total y b with h3 | h3 | h3
            · exact absurd h3 h1
            · exact absurd h3 h2
            · exact h3
          · exact hb y hy

theorem mem_sortedKeysAsc (x : String) (l : List String) :
    x ∈ sortedKeysAsc l ↔ x ∈ l := by
  induction l with
  | nil => simp [sortedKeysAsc]
  | cons a as ih =>
      show x ∈ insertAscNoDup a (sortedKeysAsc as) ↔ _
      rw [mem_insertAscNoDup, ih]
      simp

theorem pairwise_sortedKeysAsc (l : List String) :
    (sortedKeysAsc l).Pairwise fun x y => strLt x y = true := by
  induction l with
  | nil => simp [sortedKeysAsc]
  | cons a as ih => exact pairwise_insertAscNoDup a (sortedKeysAsc as) ih

theorem nodup_sortedKeysAsc (l : List String) : (sortedKeysAsc l).Nodup :=
  (pairwise_sortedKeysAsc l).imp fun h => strLt_ne _ _ h

/-! ### Referrer histogram facts -/

theorem mem_referrerRows (db : DB) (id : Int) (row : String × Nat)
    (h : row ∈ referrerRows db id) :
    row.1 ∈ (visitsFor db id).map Visit.referer ∧
      row.2 = refCount db id row.1 := by
  have h1 := (List.take_sublist _ _).mem h
  have h2 := (List.perm_insertionSort (fun a b : String × Nat => b.2 ≤ a.2)
    _).mem_iff.mp h1
  rcases List.mem_map.mp h2 with ⟨k, hk, rfl⟩
  exact ⟨(mem_sortedKeysAsc k _).mp hk, rfl⟩

theorem referrerRows_keys_nodup (db : DB) (id : Int) :
    ((referrerRows db id).map Prod.fst).Nodup := by
  have hkeys : (sortedKeysAsc ((visitsFor db id).map Visit.referer)).Nodup :=
    nodup_sortedKeysAsc _
  have hpairs : (((sortedKeysAsc ((visitsFor db id).map Visit.referer)).map
      fun k => (k, refCount db id k)).map Prod.fst).Nodup := by
    rw [List.map_map]
    exact (List.map_id' _).symm ▸ hkeys
  have hsort := ((List.perm_insertionSort (fun a b : String × Nat => b.2 ≤ a.2)
      _).map Prod.fst).nodup_iff.mpr hpairs
  exact hsort.sublist ((List.take_sublist _ _).map Prod.fst)

theorem lookupAssoc_cons (p : String × Nat) (ps : List (String × Nat)) (q : String) :
    lookupAssoc (p :: ps) q = if p.1 = q then some p.2 else lookupAssoc ps q := by
  rw [lookupAssoc, List.find?_cons]
  by_cases h : p.1 = q <;> simp [h, lookupAssoc]

theorem lookupAssoc_updAssoc (m : List (String × Nat)) (k : String) (c : Nat)
    (q : String) :
    lookupAssoc (updAssoc m k c) q = if k = q then some c else lookupAssoc m q := by
  induction m with
  | nil =>
      show lookupAssoc [(k, c)] q = _
      rw [lookupAssoc_cons]
  | cons p ps ih =>
      rw [updAssoc]
      by_cases h : p.1 = k
      · rw [if_pos h, lookupAssoc_cons, lookupAssoc_cons]
        by_cases hq : k = q
        · simp [hq]
        · have : ¬ p.1 = q := by rw [h]; exact hq
          simp [hq, this]
      · rw [if_neg h, lookupAssoc_cons, lookupAssoc_cons, ih]
        by_cases hq : k = q
        · have : ¬ p.1 = q := by rw [← hq]; exact h
          simp [hq, this]
        · by_cases hp : p.1 = q <;> simp [hp, hq]

theorem updAssoc_fresh (m : List (String × Nat)) (k : String) (c : Nat)
    (h : k ∉ m.map Prod.fst) :
    updAssoc m k c = m ++ [(k, c)] := by
  induction m with
  | nil => rfl
  | cons p ps ih =>
      have h1 : ¬ p.1 = k := by
        intro he
        exact h (by simp [he])
      rw [updAssoc, if_neg h1,
        ih fun hm => h (by simp [List.mem_map] at hm ⊢; tauto)]
      rfl

theorem foldl_updAssoc_fresh (rows : List (String × Nat))
    (m : List (String × Nat))
    (hnd : (rows.map fun r => renameKey r.1).Nodup)
    (hdisj : ∀ r ∈ rows, renameKey r.1 ∉ m.map Prod.fst) :
    rows.foldl (fun m row => updAssoc m (renameKey row.1) row.2) m =
      m ++ rows.map fun r => (renameKey r.1, r.2) := by
  induction rows generalizing m with
  | nil => simp
  | cons r rs ih =>
      rw [List.map_cons, List.nodup_cons] at hnd
      rw [List.foldl_cons, updAssoc_fresh m _ _ (hdisj r (List.mem_cons_self r rs)),
        ih (m ++ [(renameKey r.1, r.2)]) hnd.2 ?_]
      · simp
      · intro w hw
        simp only [List.map_append, List.mem_append, List.map_cons, List.map_nil,
          List.mem_singleton, not_or]
        refine ⟨hdisj w (List.mem_cons_of_mem r hw), ?_⟩
        intro he
        exact hnd.1 (he ▸ List.mem_map_of_mem (fun r => renameKey r.1) hw)

theorem renameKey_inj_on (k1 k2 : String) (h1 : k1 ≠ "Direct")
    (h2 : k2 ≠ "Direct") (h : renameKey k1 = renameKey k2) : k1 = k2 := by
  unfold renameKey at h
  by_cases e1 : k1 = ""
  · by_cases e2 : k2 = ""
    · rw [e1, e2]
    · rw [if_pos e1, if_neg e2] at h
      exact absurd h.symm h2
  · by_cases e2 : k2 = ""
    · rw [if_neg e1, if_pos e2] at h
      exact absurd h h1
    · rw [if_neg e1, if_neg e2] at h
      exact h

theorem referrersHistogram_eq_of_no_direct (db : DB) (id : Int)
    (hnd : "Direct" ∉ (visitsFor db id).map Visit.referer) :
    referrersHistogram db id =
      (referrerRows db id).map fun r => (renameKey r.1, r.2) := by
  have hkeys := referrerRows_keys_nodup db id
  have hkd : ∀ k ∈ (referrerRows db id).map Prod.fst, k ≠ "Direct" := by
    intro k hk
    rcases List.mem_map.mp hk with ⟨row, hrow, rfl⟩
    have hmem := (mem_referrerRows db id row hrow).1
    exact fun he => hnd (he ▸ hmem)
  have hrn : ((referrerRows db id).map fun r => renameKey r.1).Nodup := by
    have heq : (referrerRows db id).map (fun r => renameKey r.1) =
        ((referrerRows db id).map Prod.fst).map renameKey := by
      simp [List.map_map]
    rw [heq]
    refine hkeys.map_on ?_
    intro x hx y hy hxy
    exact renameKey_inj_on x y (hkd x hx) (hkd y hy) hxy
  simpa [referrersHistogram] using
    foldl_updAssoc_fresh (referrerRows db id) [] hrn (by simp)

/-- The last histogram write for a key: the count of the last-scanned
referrer row whose bucketed label is that key. -/
def lastMatch (rows : List (String × Nat)) (k : String) : Option Nat :=
  ((rows.filter fun r => decide (renameKey r.1 = k)).map Prod.snd).getLast?

theorem getLast?_cons_fallback (a : Nat) (l : List Nat) :
    (a :: l).getLast? = match l.getLast? with
      | some v => some v
      | none => some a := by
  cases l with
  | nil => rfl
  | cons b bs =>
      rw [List.getLast?_cons_cons]
      cases hbs : (b :: bs).getLast? with
      | some v => rfl
      | none => exact absurd (List.getLast?_eq_none_iff.mp hbs) (by simp)

theorem lookup_foldl_lastMatch (rows : List (String × Nat))
    (m : List (String × Nat)) (k : String) :
    lookupAssoc (rows.foldl (fun m row => updAssoc m (renameKey row.1) row.2) m) k =
      match lastMatch rows k with
      | some v => some v
      | none => lookupAssoc m k := by
  induction rows generalizing m with
  | nil => simp [lastMatch]
  | cons r rs ih =>
      rw [List.foldl_cons, ih]
      by_cases hr : renameKey r.1 = k
      · have hfil : lastMatch (r :: rs) k =
            match lastMatch rs k with
            | some v => some v
            | none => some r.2 := by
          unfold lastMatch
          rw [List.filter_cons_of_pos (by simp [hr]), List.map_cons,
            getLast?_cons_fallback]
        rw [hfil, lookupAssoc_updAssoc, if_pos hr]
        cases lastMatch rs k <;> rfl
      · have hfil : lastMatch (r :: rs) k = lastMatch rs k := by
          unfold lastMatch
          rw [List.filter_cons_of_neg (by simp [hr])]
        rw [hfil, lookupAssoc_updAssoc, if_neg hr]

/-- A link whose visits carry the literal referer "Direct" twice and the
empty referer once. -/
def collideDB : DB :=
  ⟨[⟨1, "https://e.x/a", "a", "t", [], 3,
     "2024-01-01 00:00:00", "2024-01-01 00:00:00", none⟩],
   [⟨1, 1, "Direct", "ua", "ip", "2024-06-01 10:00:00"⟩,
    ⟨2, 1, "Direct", "ua", "ip", "2024-06-01 11:00:00"⟩,
    ⟨3, 1, "", "ua", "ip", "2024-06-01 12:00:00"⟩], 4⟩

/-- C10: for every key, what `GetLinkStats` reports in the histogram is
the count written by the last-scanned referrer group bucketed to that
key — later writes overwrite earlier ones.  Concretely, with referrer
groups "Direct" (count 2) and "" (count 1) both in the top 10, the rows
are scanned in the order [("Direct", 2), ("", 1)], both target the key
"Direct", and the returned histogram reports only the later group's
count 1 — neither the "Direct" group's own count 2 nor the sum 3. -/
theorem histogram_direct_collision_overwrite (db : DB) (id : Int) (k : String) :
    lookupAssoc (referrersHistogram db id) k = lastMatch (referrerRows db id) k ∧
    referrerRows collideDB 1 = [("Direct", 2), ("", 1)] ∧
    referrersHistogram collideDB 1 = [("Direct", 1)] ∧
    refCount collideDB 1 "Direct" = 2 ∧ refCount collideDB 1 "" = 1 := by
  refine ⟨?_, by decide, by decide, by decide, by decide⟩
  rw [referrersHistogram, lookup_foldl_lastMatch]
  cases lastMatch (referrerRows db id) k <;> rfl

/-- A link whose visits carry the literal referer "Direct" twice and the
empty referer once (for the C6 counterexample). -/
def cexDB6 : DB :=
  ⟨[⟨1, "https://e.x/a", "a", "t", [], 3,
     "2024-01-01 00:00:00", "2024-01-01 00:00:00", none⟩],
   [⟨1, 1, "Direct", "ua", "ip", "2024-06-01 10:00:00"⟩,
    ⟨2, 1, "Direct", "ua", "ip", "2024-06-01 11:00:00"⟩,
    ⟨3, 1, "", "ua", "ip", "2024-06-01 12:00:00"⟩], 4⟩

/-- C6 counterexample: "Direct" is a referrer string of link 1's visits
with visit count 2, inside the top-10 groups, yet the returned histogram
maps "Direct" to 1, so the histogram does not map each top-10 referrer
group to its visit count. -/
theorem referrer_histogram_counterexample :
    refCount cexDB6 1 "Direct" = 2 ∧
    referrerRows cexDB6 1 = [("Direct", 2), ("", 1)] ∧
    referrersHistogram cexDB6 1 = [("Direct", 1)] :=
  ⟨by decide, by decide, by decide⟩

/-- The spec's referrer-bucketing example: one visit with empty referer
and one with "google.com". -/
def wDB6 : DB :=
  ⟨[⟨1, "https://e.x/a", "a", "t", [], 2,
     "2024-01-01 00:00:00", "2024-01-01 00:00:00", none⟩],
   [⟨1, 1, "", "ua", "ip", "2024-06-01 10:00:00"⟩,
    ⟨2, 1, "google.com", "ua", "ip", "2024-06-01 11:00:00"⟩], 3⟩

/-- C6 (amended): provided the literal referrer string "Direct" does not
itself occur among the link's visits, the histogram is exactly the top-10
referrer groups by count descending with the empty referrer relabelled
"Direct": one entry per group carrying that group's visit count, at most
10 entries; when "Direct" does occur alongside the empty referrer, the
later-scanned of the two groups overwrites the earlier one (see the
counterexample).  The concrete bucketing example of the claim holds. -/
theorem referrer_histogram_amended (db : DB) (id : Int)
    (hnd : "Direct" ∉ (visitsFor db id).map Visit.referer) :
    referrersHistogram db id =
      ((referrerRows db id).map fun r => (renameKey r.1, r.2)) ∧
    (referrersHistogram db id).length ≤ 10 ∧
    (∀ row ∈ referrerRows db id,
        row.2 = refCount db id row.1 ∧
        row.1 ∈ (visitsFor db id).map Visit.referer) ∧
    referrersHistogram wDB6 1 = [("Direct", 1), ("google.com", 1)] := by
  have heq := referrersHistogram_eq_of_no_direct db id hnd
  refine ⟨heq, ?_, ?_, by decide⟩
  · rw [heq, List.length_map]
    exact List.length_take_le 10 _
  · intro row hrow
    have h := mem_referrerRows db id row hrow
    exact ⟨h.2, h.1⟩

/-- C6 witness: the spec's example store satisfies the amended claim;
its histogram is the relabelled top-10 group list. -/
theorem referrer_histogram_amended_witness :
    referrersHistogram wDB6 1 =
      ((referrerRows wDB6 1).map fun r => (renameKey r.1, r.2)) :=
  (referrer_histogram_amended wDB6 1 (by decide)).1

/-! ### Daily series facts -/

theorem mem_dayKeysDesc (db : DB) (id : Int) (d : String) :
    d ∈ dayKeysDesc db id ↔ d ∈ (visitsFor db id).map visitDay := by
  rw [dayKeysDesc, List.mem_reverse, mem_sortedKeysAsc]

theorem pairwise_dayKeysDesc (db : DB) (id : Int) :
    (dayKeysDesc db id).Pairwise fun a b => strLt b a = true := by
  rw [dayKeysDesc, List.pairwise_reverse]
  exact pairwise_sortedKeysAsc _

theorem dailySeries_keys (db : DB) (id : Int) :
    (dailySeries db id).map Prod.fst = (dayKeysDesc db id).take 30 := by
  rw [dailySeries, List.map_map]
  exact List.map_id' _

/-- C7: the daily series has at most 30 entries, is strictly descending
by calendar date, each entry is a day that has at least one visit for the
link carrying that day's exact visit count (zero-visit days never
appear), and any visit day left out only happens when the series is full
with 30 entries that are all more recent than the omitted day. -/
theorem daily_series_bounded (db : DB) (id : Int) :
    (dailySeries db id).length ≤ 30 ∧
    (dailySeries db id).Pairwise (fun p q => strLt q.1 p.1 = true) ∧
    (∀ p ∈ dailySeries db id,
        p.2 = dayCount db id p.1 ∧ 1 ≤ p.2 ∧
        p.1 ∈ (visitsFor db id).map visitDay) ∧
    (∀ d ∈ (visitsFor db id).map visitDay,
        d ∉ (dailySeries db id).map Prod.fst →
        (dailySeries db id).length = 30 ∧
        ∀ p ∈ dailySeries db id, strLt d p.1 = true) := by
  refine ⟨?_, ?_, ?_, ?_⟩
  · rw [dailySeries, List.length_map]
    exact List.length_take_le 30 _
  · rw [dailySeries]
    refine List.pairwise_map.mpr ?_
    exact (pairwise_dayKeysDesc db id).sublist (List.take_sublist _ _)
  · intro p hp
    rw [dailySeries] at hp
    rcases List.mem_map.mp hp with ⟨d, hd, rfl⟩
    have hdk : d ∈ dayKeysDesc db id := (List.take_sublist _ _).mem hd
    have hdm : d ∈ (visitsFor db id).map visitDay := (mem_dayKeysDesc db id d).mp hdk
    refine ⟨rfl, ?_, hdm⟩
    rcases List.mem_map.mp hdm with ⟨v, hv, rfl⟩
    have : v ∈ (visitsFor db id).filter fun w => decide (visitDay w = visitDay v) :=
      List.mem_filter.mpr ⟨hv, by simp⟩
    have hne : (visitsFor db id).filter (fun w => decide (visitDay w = visitDay v)) ≠ [] :=
      List.ne_nil_of_mem this
    show 1 ≤ dayCount db id (visitDay v)
    rw [dayCount]
    exact Nat.one_le_iff_ne_zero.mpr fun h0 => hne (List.eq_nil_of_length_eq_zero h0)
  · intro d hdm hnot
    rw [dailySeries_keys] at hnot
    have hdk : d ∈ dayKeysDesc db id := (mem_dayKeysDesc db id d).mpr hdm
    have hsplit := List.take_append_drop 30 (dayKeysDesc db id)
    have hdrop : d ∈ (dayKeysDesc db id).drop 30 := by
      rcases List.mem_append.mp (hsplit ▸ hdk) with h | h
      · exact absurd h hnot
      · exact h
    have hlen : 30 < (dayKeysDesc db id).length := by
      by_contra hc
      rw [List.drop_eq_nil_of_le (by omega)] at hdrop
      exact absurd hdrop (List.not_mem_nil d)
    have hcross := (List.pairwise_append.mp
      (hsplit.symm ▸ pairwise_dayKeysDesc db id)).2.2
    refine ⟨?_, ?_⟩
    · rw [dailySeries, List.length_map, List.length_take]
      omega
    · intro p hp
      rw [dailySeries] at hp
      rcases List.mem_map.mp hp with ⟨x, hx, rfl⟩
      exact hcross x hx d hdrop

/-- Two-digit decimal rendering of a day-of-month. -/
def twoDigits (n : Nat) : String :=
  (if n < 10 then "0" else "") ++ toString n

/-- The n-th of 40 distinct calendar days. -/
def mkDay (n : Nat) : String :=
  if n < 31 then "2024-01-" ++ twoDigits (n + 1)
  else "2024-02-" ++ twoDigits (n - 30)

/-- A link with one visit on each of 40 distinct days. -/
def manyDaysDB : DB :=
  ⟨[⟨1, "https://e.x/a", "a", "t", [], 40,
     "2024-01-01 00:00:00", "2024-01-01 00:00:00", none⟩],
   (List.range 40).map fun n =>
     ⟨Int.ofNat n, 1, "", "ua", "ip", mkDay n ++ " 10:00:00"⟩, 41⟩

/-- C7 witness: with visits across 40 distinct days the series is capped
at 30 entries — and exactly 30 are returned. -/
theorem daily_series_bounded_witness :
    (dailySeries manyDaysDB 1).length ≤ 30 ∧
    (dailySeries manyDaysDB 1).length = 30 ∧
    (dayKeysDesc manyDaysDB 1).length = 40 :=
  ⟨(daily_series_bounded manyDaysDB 1).1, by decide, by decide⟩

end UrlShort
